import Mathlib

/-!
Verification of the core of the Reading-Practice repository: the decision
ring buffer (`decisionBuffer.js`), the auto-backtrack controller (`app.js`),
the beam-search aligner (`aligner.js`, plus the phonetic variant), and the
tokenizer's word normalization (`tokenize.js`).

JavaScript numbers are modelled as exact rationals (`ℚ`) where the source
does fractional arithmetic, and as naturals/integers where the source only
does index arithmetic.  JavaScript strings are modelled as `List Char`.
-/

namespace ReadingPractice

/-- Token / decision status strings used by the source
(`"pending" | "correct" | "incorrect" | "skipped" | "sep"`). -/
inductive TokenStatus where
| pending
| correct
| incorrect
| skipped
| sep
deriving DecidableEq, Repr

/-! ## Decision ring buffer (`decisionBuffer.js`)

`class DecisionBuffer` holds `size`, a backing JavaScript array `buffer`
(which only ever grows by `push` up to `size` elements, so it has no holes),
`head` and `count`.  Records are opaque objects, so the structure is
polymorphic. -/

structure DecisionBuffer (α : Type) where
size : ℕ
buffer : List α
head : ℕ
count : ℕ
deriving DecidableEq, Repr

namespace DecisionBuffer

/-- `new DecisionBuffer(size)`. -/
def mk0 (α : Type) (size : ℕ) : DecisionBuffer α :=
  ⟨size, [], 0, 0⟩

/-- `push(decision)`: append while `count < size`, else overwrite slot
`head` and advance `head` modulo `size`. -/
def push (b : DecisionBuffer α) (d : α) : DecisionBuffer α :=
  if b.count < b.size then
    { b with buffer := b.buffer ++ [d], count := b.count + 1 }
  else
    { b with buffer := b.buffer.set b.head d, head := (b.head + 1) % b.size }

/-- `getRecent(count)`: if the request `k` is `≥ this.count`, spread the
backing array; otherwise read `k` slots at `(head - k + i + size) % size`,
dropping slots that are absent from the backing array (the JavaScript
`if (this.buffer[idx])` truthiness test; stored records are objects, hence
truthy exactly when present).  The subtraction is safe in `ℕ` form because
`head + size ≥ k` on this branch. -/
def getRecent (b : DecisionBuffer α) (k : ℕ) : List α :=
  if b.count ≤ k then b.buffer
  else
    (List.range k).flatMap (fun i =>
      match b.buffer.get? ((b.head + b.size - k + i) % b.size) with
      | some r => [r]
      | none => [])

/-- `clear()`. -/
def clear (b : DecisionBuffer α) : DecisionBuffer α :=
  ⟨b.size, [], 0, 0⟩

/-- The undo of the most recent push, as inlined in `app.js`'s `backOne`:
decrement `count`; if it reaches zero reset `head`, otherwise move `head`
backwards modulo `size`.  No-op on an empty buffer. -/
def undoLast (b : DecisionBuffer α) : DecisionBuffer α :=
  if 0 < b.count then
    let c := b.count - 1
    { b with count := c,
             head := if c = 0 then 0 else (b.head + b.size - 1) % b.size }
  else b

end DecisionBuffer

/-! ## Auto-backtrack drift cost (`app.js`, `calculateAlignmentCost`) -/

/-- A decision record as consumed by the backtrack controller.  The source
records also carry `timestamp`, `expected`, `heard` and `automatic` fields,
which no modelled operation ever reads, so they are omitted here. -/
structure DecisionRecord where
index : ℕ
status : TokenStatus
deriving DecidableEq, Repr

/-- One iteration of the `for (const decision of decisions)` loop in
`calculateAlignmentCost`: the accumulator is `(cost, consecutiveErrors)`. -/
def costStep (acc : ℚ × ℕ) (d : DecisionRecord) : ℚ × ℕ :=
  let next : ℚ × ℕ :=
    match d.status with
    | .correct => (acc.1 + 0.1, 0)
    | .incorrect => (acc.1 + 1.0, acc.2 + 1)
    | .skipped => (acc.1 + 0.5, acc.2 + 1)
    | _ => (acc.1, acc.2)
  if 3 ≤ next.2 then (next.1 + (next.2 : ℚ) * 0.5, next.2) else next

/-- `calculateAlignmentCost(decisions)` from `app.js`. -/
def calculateAlignmentCost (decisions : List DecisionRecord) : ℚ :=
  (decisions.foldl costStep (0, 0)).1

/-- Per-record base contribution named by claim C1 and §4.4 of the spec. -/
def baseCost (d : DecisionRecord) : ℚ :=
  match d.status with
  | .correct => 0.1
  | .incorrect => 1.0
  | .skipped => 0.5
  | _ => 0

/-- The consecutive-error counter update: increments on `incorrect` and
`skipped`, resets on `correct`, and is untouched by any other status. -/
def consecAfter (c : ℕ) (d : DecisionRecord) : ℕ :=
  match d.status with
  | .correct => 0
  | .incorrect => c + 1
  | .skipped => c + 1
  | _ => c

/-- Value of the consecutive-error counter after each record, starting
from `c`. -/
def consecCounts (c : ℕ) : List DecisionRecord → List ℕ
| [] => []
| d :: ds => consecAfter c d :: consecCounts (consecAfter c d) ds

/-- Is a record non-`correct` in the sense of the consecutive-error run
(the two statuses that increment the counter)? -/
def isError (d : DecisionRecord) : Bool :=
  d.status = TokenStatus.incorrect || d.status = TokenStatus.skipped

/-- Lengths of the maximal runs of consecutive error records, in order. -/
def errorRunsAux : List DecisionRecord → ℕ → List ℕ
| [], run => if run = 0 then [] else [run]
| d :: ds, run =>
  if isError d then errorRunsAux ds (run + 1)
  else (if run = 0 then [] else [run]) ++ errorRunsAux ds 0

/-- Lengths of the maximal runs of consecutive error records. -/
def errorRuns (l : List DecisionRecord) : List ℕ :=
  errorRunsAux l 0

/-- The drift cost exactly as claim C1 words it: the sum of base
contributions plus, for each maximal run of at least three consecutive
non-correct decisions of length `L`, one extra penalty of `0.5 × L`. -/
def claimDriftCost (l : List DecisionRecord) : ℚ :=
  (l.map baseCost).sum +
    (((errorRuns l).filter (fun L => 3 ≤ L)).map (fun L => 0.5 * (L : ℚ))).sum

/-- Generalized description of the cost loop: starting from accumulator
`acc`, the final cost is the starting cost plus all base contributions plus
`0.5 × c` for every position whose running consecutive-error count `c`
(seeded with `acc.2`) is at least 3. -/
theorem calculateAlignmentCost_loop (l : List DecisionRecord) :
    ∀ acc : ℚ × ℕ,
      (l.foldl costStep acc).1 =
        acc.1 + (l.map baseCost).sum +
          (((consecCounts acc.2 l).filter (fun c => 3 ≤ c)).map
            (fun c => (c : ℚ) * 0.5)).sum := by
  induction l with
  | nil => intro acc; simp [consecCounts]
  | cons d ds ih =>
    intro acc
    have hsnd : (costStep acc d).2 = consecAfter acc.2 d := by
      simp only [costStep, consecAfter]
      cases d.status <;> simp <;> split <;> rfl
    have hfst : (costStep acc d).1 =
        acc.1 + baseCost d +
          (if 3 ≤ consecAfter acc.2 d then ((consecAfter acc.2 d : ℚ)) * 0.5
           else 0) := by
      simp only [costStep, consecAfter, baseCost]
      cases d.status <;> simp <;> split <;> simp
    rw [List.foldl_cons, ih (costStep acc d), hsnd, hfst]
    by_cases h3 : 3 ≤ consecAfter acc.2 d
    · simp [consecCounts, List.filter_cons, h3]
      ring
    · simp [consecCounts, List.filter_cons, h3]
      ring

/-- A window of four consecutive `incorrect` decisions, on which the
claimed one-penalty-per-run formula and the code differ. -/
def fourIncorrect : List DecisionRecord :=
  List.replicate 4 ⟨0, TokenStatus.incorrect⟩

/-- C1 counterexample: on four consecutive `incorrect` decisions the claimed
formula gives `4 + 0.5 × 4 = 6`, but `calculateAlignmentCost` gives
`4 + 0.5 × 3 + 0.5 × 4 = 7.5` — the penalty is added again at every record
at which the consecutive counter is still `≥ 3`, not once per maximal run. -/
theorem c1_driftCost_counterexample :
    claimDriftCost fourIncorrect ≠ calculateAlignmentCost fourIncorrect ∧
      claimDriftCost fourIncorrect = 6 ∧
      calculateAlignmentCost fourIncorrect = 7.5 := by
  have h1 : claimDriftCost fourIncorrect = 6 := by
    simp [claimDriftCost, fourIncorrect, errorRuns, errorRunsAux, isError,
      baseCost, List.replicate]
    norm_num
  have h2 : calculateAlignmentCost fourIncorrect = 7.5 := by
    simp [calculateAlignmentCost, fourIncorrect, costStep, List.replicate]
    norm_num
  refine ⟨?_, h1, h2⟩
  rw [h1, h2]
  norm_num

/-- C1 (amended): the drift cost equals the sum of the per-record base
contributions (0.1 correct / 0.5 skipped / 1.0 incorrect) plus a penalty of
`0.5 × c` for every record at which the running consecutive non-correct
counter `c` (reset by each `correct`) has reached at least 3 — so a maximal
non-correct run of length `L ≥ 3` contributes `0.5 × (3 + 4 + ⋯ + L)`, not
a single `0.5 × L`. -/
theorem c1_driftCost_amended (decisions : List DecisionRecord) :
    calculateAlignmentCost decisions =
      (decisions.map baseCost).sum +
        (((consecCounts 0 decisions).filter (fun c => 3 ≤ c)).map
          (fun c => (c : ℚ) * 0.5)).sum := by
  have h := calculateAlignmentCost_loop decisions (0, 0)
  simpa [calculateAlignmentCost] using h

/-- The buffer of capacity 3 after pushing records 10 then 11: `head = 0`,
`count = 2`, backing array `[10, 11]`. -/
def bufC2 : DecisionBuffer ℕ :=
  ((DecisionBuffer.mk0 ℕ 3).push 10).push 11

/-- C2 failing input: with two records stored in a non-full buffer,
`getRecent(1)` indexes slot `(0 − 1 + 0 + 3) % 3 = 2`, which was never
written, so it returns `[]` instead of the most recent record `[11]`. -/
theorem c2_getRecent_failing :
    DecisionBuffer.getRecent bufC2 1 = [] ∧
      DecisionBuffer.getRecent bufC2 1 ≠ [11] := by
  decide

/-- The buffer of capacity 3 holding the single record 10. -/
def bufC3 : DecisionBuffer ℕ :=
  (DecisionBuffer.mk0 ℕ 3).push 10

/-- C3 failing input: starting from a buffer holding `[10]`, doing
`push(20)` and then the undo from `backOne` restores `count = 1` but leaves
the pushed record in the backing array, so the retrievable contents are
`[10, 20]` instead of the original `[10]`. -/
theorem c3_undo_failing :
    ((bufC3.push 20).undoLast).count = bufC3.count ∧
      DecisionBuffer.getRecent ((bufC3.push 20).undoLast) 5 = [10, 20] ∧
      DecisionBuffer.getRecent bufC3 5 = [10] := by
  decide

/-! ## Levenshtein similarity (`aligner.js`, `similarity` / `levenshtein`)

The source computes the edit distance with a single rolling row `dp`:
`dp[j] = j` initially, and for each `i` the row is rewritten in place using
`prev` (the old `dp[j-1]`), the old `dp[j]` and the new `dp[j-1]`.  The
inner loop is modelled by `levRowAux`, the outer loop by `levLoop`. -/

/-- The inner `for (let j = 1; j <= n; j++)` loop of `levenshtein`.
Arguments: the current character `c` of `a`, the remaining characters of
`b`, `diag` (the old row's previous entry, JS `prev`), the remaining old
row entries `dp[j..]`, and `left` (the new row's previous entry). -/
def levRowAux (c : Char) : List Char → ℕ → List ℕ → ℕ → List ℕ
| [], _, _, _ => []
| d :: bs, diag, old, left =>
  let up := old.headD 0
  let cell := if c = d then diag else min (diag + 1) (min (up + 1) (left + 1))
  cell :: levRowAux c bs up old.tail cell

/-- The outer `for (let i = 1; i <= m; i++)` loop of `levenshtein`: fold
the remaining characters of `a` over the row, carrying the row index `i`. -/
def levLoop (b : List Char) : List Char → List ℕ → ℕ → List ℕ
| [], row, _ => row
| c :: as, row, i =>
  levLoop b as (i :: levRowAux c b (row.headD 0) row.tail i) (i + 1)

/-- `levenshtein(a, b)` from `aligner.js`: early exits for empty inputs,
then the rolling-row dynamic program, returning `dp[n]`. -/
def levenshtein (a b : List Char) : ℕ :=
  if a = [] then b.length
  else if b = [] then a.length
  else (levLoop b a (List.range (b.length + 1)) 1).getD b.length 0

/-- The textbook prefix-distance table: `levTable a b i j` is the edit
distance between the first `i` characters of `a` and the first `j`
characters of `b` (character lookups beyond the end never occur along the
paths the row program takes). -/
def levTable (a b : List Char) : ℕ → ℕ → ℕ
| 0, j => j
| i + 1, 0 => i + 1
| i + 1, j + 1 =>
  if a.getD i ' ' = b.getD j ' ' then levTable a b i j
  else
    min (levTable a b i j + 1)
      (min (levTable a b i (j + 1) + 1) (levTable a b (i + 1) j + 1))
termination_by i j => (i, j)

/-- The prefix-distance table is symmetric in its two strings. -/
theorem levTable_symm (a b : List Char) :
    ∀ i j, levTable a b i j = levTable b a j i := by
  intro i
  induction i with
  | zero =>
    intro j
    cases j <;> simp [levTable]
  | succ i ih =>
    intro j
    induction j with
    | zero => simp [levTable]
    | succ j ihj =>
      rw [levTable, levTable]
      rcases eq_or_ne (a.getD i ' ') (b.getD j ' ') with heq | hne
      · rw [if_pos heq, if_pos heq.symm, ih j]
      · rw [if_neg hne, if_neg (Ne.symm hne), ih j, ih (j + 1), ihj]
        omega

/-- The prefix distance of a string against itself is zero on the
diagonal. -/
theorem levTable_self (a : List Char) : ∀ i, levTable a a i i = 0 := by
  intro i
  induction i with
  | zero => simp [levTable]
  | succ i ih => rw [levTable, if_pos rfl, ih]

/-- The prefix distance never exceeds the longer prefix length. -/
theorem levTable_le_max (a b : List Char) :
    ∀ i j, levTable a b i j ≤ max i j := by
  intro i
  induction i with
  | zero =>
    intro j
    cases j <;> simp [levTable]
  | succ i ih =>
    intro j
    induction j with
    | zero => simp [levTable]
    | succ j ihj =>
      rw [levTable]
      have h1 := ih j
      have h2 := ih (j + 1)
      split <;> omega

/-- A cons decomposition of `drop` fixes the element at that index. -/
theorem drop_cons_getD (d : Char) (bs' : List Char) :
    ∀ (b : List Char) (j : ℕ), b.drop j = d :: bs' → b.getD j ' ' = d := by
  intro b
  induction b with
  | nil => intro j h; simp at h
  | cons x xs ih =>
    intro j h
    cases j with
    | zero => simp at h; simp [List.getD, h.1]
    | succ j => exact ih j h

/-- A cons decomposition of `drop` determines the next drop. -/
theorem drop_cons_drop (d : Char) (bs' : List Char) :
    ∀ (b : List Char) (j : ℕ), b.drop j = d :: bs' → b.drop (j + 1) = bs' := by
  intro b
  induction b with
  | nil => intro j h; simp at h
  | cons x xs ih =>
    intro j h
    cases j with
    | zero => simpa using congrArg List.tail h
    | succ j => exact ih j h

/-- A cons decomposition of `drop` bounds the index. -/
theorem drop_cons_lt (d : Char) (bs' : List Char) (b : List Char) (j : ℕ)
    (h : b.drop j = d :: bs') : j < b.length := by
  have := congrArg List.length h
  simp at this
  omega

/-- Invariant of the inner row loop: starting at column `j` with the
correct `diag`, old-row tail and `left` values, `levRowAux` produces the
columns `j+1 … n` of row `i0 + 1` of the prefix-distance table. -/
theorem levRowAux_spec (a b : List Char) (i0 : ℕ) (c : Char)
    (hc : c = a.getD i0 ' ') :
    ∀ (bs : List Char) (j : ℕ), b.drop j = bs →
      levRowAux c bs (levTable a b i0 j)
        ((List.range' (j + 1) (b.length - j)).map (levTable a b i0))
        (levTable a b (i0 + 1) j)
      = (List.range' (j + 1) (b.length - j)).map (levTable a b (i0 + 1)) := by
  intro bs
  induction bs with
  | nil =>
    intro j hj
    have hlen : b.length ≤ j := by
      have := congrArg List.length hj
      simp at this
      omega
    have : b.length - j = 0 := by omega
    simp [this, levRowAux]
  | cons d bs' ih =>
    intro j hj
    have hlt : j < b.length := drop_cons_lt d bs' b j hj
    have hd : b.getD j ' ' = d := drop_cons_getD d bs' b j hj
    have hdrop : b.drop (j + 1) = bs' := drop_cons_drop d bs' b j hj
    have hsub : b.length - j = (b.length - (j + 1)) + 1 := by omega
    rw [hsub, List.range'_succ, List.map_cons, levRowAux]
    have hup :
        ((levTable a b i0 (j + 1) ::
          (List.range' (j + 1 + 1) (b.length - (j + 1))).map
            (levTable a b i0)).headD 0) = levTable a b i0 (j + 1) := rfl
    have hcell :
        (if c = d then levTable a b i0 j
         else min (levTable a b i0 j + 1)
           (min (levTable a b i0 (j + 1) + 1)
             (levTable a b (i0 + 1) j + 1))) = levTable a b (i0 + 1) (j + 1) := by
      rw [levTable, hc, hd]
    simp only [hup, List.tail_cons, hcell]
    rw [ih (j + 1) hdrop, List.map_cons]

/-- Invariant of the outer loop: starting from row `i0` of the table with
counter `i0 + 1`, folding the remaining characters of `a` produces row
`a.length`. -/
theorem levLoop_spec (a b : List Char) :
    ∀ (as : List Char) (i0 : ℕ), a.drop i0 = as → i0 ≤ a.length →
      levLoop b as ((List.range' 0 (b.length + 1)).map (levTable a b i0))
          (i0 + 1)
        = (List.range' 0 (b.length + 1)).map (levTable a b a.length) := by
  intro as
  induction as with
  | nil =>
    intro i0 h hle
    have : a.length ≤ i0 := by
      have := congrArg List.length h
      simp at this
      omega
    have heq : i0 = a.length := le_antisymm hle this
    rw [levLoop, heq]
  | cons c as' ih =>
    intro i0 h hle
    have hc : a.getD i0 ' ' = c := drop_cons_getD c as' a i0 h
    have hdrop : a.drop (i0 + 1) = as' := drop_cons_drop c as' a i0 h
    have hlt : i0 < a.length := drop_cons_lt c as' a i0 h
    have hrow0 : List.range' 0 (b.length + 1) = 0 :: List.range' 1 b.length := by
      simp [List.range'_succ]
    have hzero1 : levTable a b (i0 + 1) 0 = i0 + 1 := by
      simp [levTable]
    have hinner := levRowAux_spec a b i0 c hc.symm b 0 (by simp)
    rw [show List.range' (0 + 1) (b.length - 0) = List.range' 1 b.length by simp,
      hzero1] at hinner
    rw [levLoop]
    simp only [hrow0, List.map_cons, List.headD_cons, List.tail_cons]
    rw [hinner]
    have hstep := ih (i0 + 1) hdrop (by omega)
    simp only [hrow0, List.map_cons, hzero1] at hstep
    exact hstep

/-- Indexing a mapped `range'`. -/
theorem getD_map_range' (f : ℕ → ℕ) :
    ∀ (len s k : ℕ), k < len →
      ((List.range' s len).map f).getD k 0 = f (s + k) := by
  intro len
  induction len with
  | zero => intro s k h; omega
  | succ len ih =>
    intro s k h
    rw [List.range'_succ, List.map_cons]
    cases k with
    | zero => simp [List.getD]
    | succ k =>
      have := ih (s + 1) k (by omega)
      simp only [List.getD_cons_succ]
      rw [this]
      ring_nf

/-- The rolling-row program of `aligner.js` computes the prefix-distance
table at the two full lengths. -/
theorem levenshtein_eq_levTable (a b : List Char) :
    levenshtein a b = levTable a b a.length b.length := by
  rcases eq_or_ne a [] with ha | ha
  · subst ha
    simp [levenshtein, levTable]
  · rcases eq_or_ne b [] with hb | hb
    · subst hb
      rw [levenshtein, if_neg ha, if_pos rfl]
      cases a.length <;> simp [levTable]
    · rw [levenshtein, if_neg ha, if_neg hb]
      have hinit : List.range (b.length + 1) =
          (List.range' 0 (b.length + 1)).map (levTable a b 0) := by
        rw [List.range_eq_range']
        have h0 : ∀ j, levTable a b 0 j = j := fun j => by cases j <;> simp [levTable]
        rw [List.map_congr_left (fun j _ => h0 j)]
        simp
      rw [hinit, levLoop_spec a b a (0 : ℕ) (by simp) (Nat.zero_le _)]
      have hlast := getD_map_range' (levTable a b a.length) (b.length + 1) 0
        b.length (Nat.lt_succ_self _)
      rw [Nat.zero_add] at hlast
      exact hlast

/-- `similarity(a, b)` from `aligner.js`: `1 - dist / maxLen`, where
`maxLen = Math.max(a.length, b.length) || 1`. -/
def similarity (a b : List Char) : ℚ :=
  let maxLen : ℕ :=
    if max a.length b.length = 0 then 1 else max a.length b.length
  1 - (levenshtein a b : ℚ) / (maxLen : ℚ)

/-- The distance is bounded by the longer length. -/
theorem levenshtein_le_max (a b : List Char) :
    levenshtein a b ≤ max a.length b.length := by
  rw [levenshtein_eq_levTable]
  exact levTable_le_max a b a.length b.length

/-- The string distance to itself is zero. -/
theorem levenshtein_self (a : List Char) : levenshtein a a = 0 := by
  rw [levenshtein_eq_levTable]
  exact levTable_self a a.length

/-- The string distance is symmetric. -/
theorem levenshtein_symm (a b : List Char) :
    levenshtein a b = levenshtein b a := by
  rw [levenshtein_eq_levTable, levenshtein_eq_levTable]
  exact levTable_symm a b a.length b.length

/-- C7: `similarity` lies in `[0, 1]`, is `1` on equal strings and on the
pair of empty strings, and is symmetric. -/
theorem c7_similarity_props (a b : List Char) :
    0 ≤ similarity a b ∧ similarity a b ≤ 1 ∧
      similarity a a = 1 ∧ similarity ([] : List Char) [] = 1 ∧
      similarity a b = similarity b a := by
  have hbounds : ∀ x y : List Char, 0 ≤ similarity x y ∧ similarity x y ≤ 1 := by
    intro x y
    have hle := levenshtein_le_max x y
    by_cases hM : max x.length y.length = 0
    · have hdist : levenshtein x y = 0 := by omega
      constructor <;> simp [similarity, hM, hdist]
    · have hpos : (0 : ℚ) < (max x.length y.length : ℕ) := by
        exact_mod_cast Nat.pos_of_ne_zero hM
      constructor
      · have hdiv : (levenshtein x y : ℚ) / (max x.length y.length : ℕ) ≤ 1 := by
          rw [div_le_one hpos]
          exact_mod_cast hle
        simp only [similarity, if_neg hM]
        linarith
      · have hdiv : (0 : ℚ) ≤ (levenshtein x y : ℚ) / (max x.length y.length : ℕ) := by
          positivity
        simp only [similarity, if_neg hM]
        linarith
  refine ⟨(hbounds a b).1, (hbounds a b).2, ?_, ?_, ?_⟩
  · by_cases hM : max a.length a.length = 0
    · simp [similarity, hM, levenshtein_self]
    · simp [similarity, hM, levenshtein_self]
  · simp [similarity, levenshtein]
  · have hmax : max a.length b.length = max b.length a.length := Nat.max_comm _ _
    simp only [similarity, hmax, levenshtein_symm a b]

/-! ## Word normalization (`tokenize.js`, `normalizeWord`) -/

/-- The regex predicate `[\p{L}\p{N}]` (any Unicode letter or number) used
by the edge-stripping step of `normalizeWord`.  The Unicode general
categories are modelled exactly on the Basic Latin, Latin-1 Supplement and
Latin Extended ranges (code points below U+02C2); higher code points are
outside the model and never occur in the strings this development
evaluates the function on. -/
def jsLetterOrDigit (c : Char) : Bool :=
  (0x30 ≤ c.toNat && c.toNat ≤ 0x39) ||
  (0x41 ≤ c.toNat && c.toNat ≤ 0x5A) ||
  (0x61 ≤ c.toNat && c.toNat ≤ 0x7A) ||
  c.toNat == 0xAA || c.toNat == 0xB2 || c.toNat == 0xB3 || c.toNat == 0xB5 ||
  c.toNat == 0xB9 || c.toNat == 0xBA ||
  (0xBC ≤ c.toNat && c.toNat ≤ 0xBE) ||
  (0xC0 ≤ c.toNat && c.toNat ≤ 0xD6) ||
  (0xD8 ≤ c.toNat && c.toNat ≤ 0xF6) ||
  (0xF8 ≤ c.toNat && c.toNat ≤ 0x2C1)

/-- The character class of the collapsing regex in `normalizeWord`.  The
source bytes of the class are U+0027, U+0027, U+0060, U+00B4, U+002D,
U+2013, U+2014, U+2212: the ASCII hyphen U+002D sits *between* two
literals, so the regex engine parses it as a range operator — the class is
the set U+0027, U+0060, the whole range U+00B4 through U+2013, plus U+2014
and U+2212, and it does not contain the ASCII hyphen itself. -/
def collapseClass (c : Char) : Bool :=
  c.toNat == 0x27 || c.toNat == 0x60 ||
  (0xB4 ≤ c.toNat && c.toNat ≤ 0x2013) ||
  c.toNat == 0x2014 || c.toNat == 0x2212

/-- The edge strip `replace(/^[^\p{L}\p{N}]+|[^\p{L}\p{N}]+$/gu, "")`:
drop the maximal run of non-letter/digit characters from both ends. -/
def stripPunct (l : List Char) : List Char :=
  ((l.dropWhile fun c => !jsLetterOrDigit c).reverse.dropWhile
    fun c => !jsLetterOrDigit c).reverse

/-- `normalizeWord(w)` from `tokenize.js`: empty in, empty out; otherwise
lowercase (JS `toLowerCase`, modelled by the Basic Latin `Char.toLower` —
exact on every code point this development uses), strip edge punctuation,
and delete the characters of the collapse class. -/
def normalizeWord (w : List Char) : List Char :=
  if w = [] then []
  else (stripPunct (w.map Char.toLower)).filter fun c => !collapseClass c

/-- Reading back a code point below the surrogate range. -/
theorem char_toNat_ofNat_lt (n : ℕ) (h : n < 0xd800) :
    (Char.ofNat n).toNat = n := by
  have hv : Nat.isValidChar n := Or.inl h
  simp [Char.ofNat, hv, Char.ofNatAux, Char.toNat, UInt32.toNat,
    BitVec.toNat_ofNatLt]

/-- `Char.toLower` is idempotent. -/
theorem toLower_idem (c : Char) :
    Char.toLower (Char.toLower c) = Char.toLower c := by
  have key : ∀ d : Char, ¬(d.toNat ≥ 65 ∧ d.toNat ≤ 90) →
      Char.toLower d = d := by
    intro d hd
    unfold Char.toLower
    simp [hd]
  by_cases h : c.toNat ≥ 65 ∧ c.toNat ≤ 90
  · have hlow : Char.toLower c = Char.ofNat (c.toNat + 32) := by
      unfold Char.toLower
      simp [h]
    rw [hlow]
    apply key
    rw [char_toNat_ofNat_lt _ (by omega)]
    omega
  · rw [key c h, key c h]

/-- `Char.toLower` keeps Basic Latin inside Basic Latin. -/
theorem toLower_ascii (c : Char) (h : c.toNat < 128) :
    (Char.toLower c).toNat < 128 := by
  unfold Char.toLower
  by_cases hc : c.toNat ≥ 65 ∧ c.toNat ≤ 90
  · simp only [hc, and_self, if_pos]
    rw [char_toNat_ofNat_lt _ (by omega)]
    omega
  · simp [hc, h]

/-- The first survivor of `dropWhile` fails the predicate. -/
theorem dropWhile_head_false (q : Char → Bool) :
    ∀ (l : List Char) (c : Char), (l.dropWhile q).head? = some c →
      q c = false := by
  intro l
  induction l with
  | nil => intro c hc; simp at hc
  | cons x xs ih =>
    intro c hc
    rw [List.dropWhile_cons] at hc
    by_cases hx : q x = true
    · exact ih c (by rwa [if_pos hx] at hc)
    · rw [if_neg hx] at hc
      simp at hc
      rw [← hc]
      simpa using hx

/-- `dropWhile` only removes a prefix. -/
theorem dropWhile_append (q : Char → Bool) :
    ∀ l : List Char, ∃ t, l = t ++ l.dropWhile q := by
  intro l
  induction l with
  | nil => exact ⟨[], rfl⟩
  | cons x xs ih =>
    by_cases hx : q x = true
    · rcases ih with ⟨t, ht⟩
      exact ⟨x :: t, by rw [List.dropWhile_cons, if_pos hx]; simpa using ht⟩
    · exact ⟨[], by rw [List.dropWhile_cons, if_neg hx]; simp⟩

/-- The head of a nonempty left factor is the head of the append. -/
theorem head?_append_left (xs ys : List Char) (h : xs ≠ []) :
    (xs ++ ys).head? = xs.head? := by
  cases xs with
  | nil => exact absurd rfl h
  | cons x xs => rfl

/-- Filtering keeps a head that satisfies the predicate in place. -/
theorem head?_filter (p : Char → Bool) (l : List Char) (c : Char)
    (h : l.head? = some c) (hp : p c = true) : (l.filter p).head? = some c := by
  cases l with
  | nil => simp at h
  | cons x xs =>
    have hx : x = c := by simpa using h
    subst hx
    simp [List.filter_cons, hp]

/-- The head of a list is one of its members. -/
theorem head?_mem (l : List Char) (c : Char) (h : l.head? = some c) :
    c ∈ l := by
  cases l with
  | nil => simp at h
  | cons x xs =>
    have hx : x = c := by simpa using h
    simp [hx]

/-- In Basic Latin the collapse class contains no letter or digit (only
U+0027 and U+0060 are below 128). -/
theorem ascii_alnum_not_collapse (c : Char) (h : c.toNat < 128)
    (ha : jsLetterOrDigit c = true) : collapseClass c = false := by
  simp only [jsLetterOrDigit, Bool.or_eq_true, Bool.and_eq_true,
    decide_eq_true_eq, beq_iff_eq] at ha
  simp only [collapseClass, Bool.or_eq_false_iff, Bool.and_eq_false_iff,
    beq_eq_false_iff_ne, ne_eq, decide_eq_false_iff_not, not_le]
  omega

/-- Second application of the strip-and-collapse pipeline is the identity,
provided the input consists of lowercase Basic Latin characters (so that
no collapse-class character is a letter or digit). -/
theorem normalizeWord_second (l' : List Char)
    (hascii : ∀ c ∈ l', c.toNat < 128)
    (hlower : ∀ c ∈ l', Char.toLower c = c) :
    normalizeWord ((stripPunct l').filter fun c => !collapseClass c) =
      (stripPunct l').filter fun c => !collapseClass c := by
  rcases eq_or_ne ((stripPunct l').filter fun c => !collapseClass c) [] with
    hl0 | hl0
  · rw [hl0]
    simp [normalizeWord]
  · have hBrevne : stripPunct l' ≠ [] := by
      intro hB
      apply hl0
      rw [hB]
      rfl
    -- every character of the result comes from l'
    have hmemStrip : ∀ c ∈ stripPunct l', c ∈ l' := by
      intro c hc
      have h2 : c ∈ (l'.dropWhile fun c => !jsLetterOrDigit c).reverse.dropWhile
          fun c => !jsLetterOrDigit c := List.mem_reverse.mp hc
      have h3 : c ∈ (l'.dropWhile fun c => !jsLetterOrDigit c).reverse := by
        rcases dropWhile_append (fun c => !jsLetterOrDigit c)
          (l'.dropWhile fun c => !jsLetterOrDigit c).reverse with ⟨t, ht⟩
        rw [ht]
        exact List.mem_append_right t h2
      have h4 : c ∈ l'.dropWhile fun c => !jsLetterOrDigit c :=
        List.mem_reverse.mp h3
      rcases dropWhile_append (fun c => !jsLetterOrDigit c) l' with ⟨t, ht⟩
      rw [ht]
      exact List.mem_append_right t h4
    have hmem : ∀ c ∈ (stripPunct l').filter fun c => !collapseClass c,
        c ∈ l' := fun c hc => hmemStrip c (List.mem_of_mem_filter hc)
    -- lowercasing is the identity on the result
    have hmapA : ((stripPunct l').filter fun c => !collapseClass c).map
        Char.toLower = (stripPunct l').filter fun c => !collapseClass c := by
      have hcongr : ∀ c ∈ (stripPunct l').filter fun c => !collapseClass c,
          Char.toLower c = id c := fun c hc => hlower c (hmem c hc)
      rw [List.map_congr_left hcongr, List.map_id]
    -- the head of the stripped list is a letter/digit
    obtain ⟨c₁, hc₁⟩ : ∃ c, (stripPunct l').head? = some c := by
      cases hB : stripPunct l' with
      | nil => exact absurd hB hBrevne
      | cons x xs => exact ⟨x, rfl⟩
    have hheadA : (l'.dropWhile fun c => !jsLetterOrDigit c).head? =
        some c₁ := by
      rcases dropWhile_append (fun c => !jsLetterOrDigit c)
        (l'.dropWhile fun c => !jsLetterOrDigit c).reverse with ⟨t, ht⟩
      have hpre : (l'.dropWhile fun c => !jsLetterOrDigit c) =
          stripPunct l' ++ t.reverse := by
        have := congrArg List.reverse ht
        simpa [stripPunct, List.reverse_append] using this
      rw [hpre, head?_append_left _ _ hBrevne]
      exact hc₁
    have hq₁ : (!jsLetterOrDigit c₁) = false :=
      dropWhile_head_false _ l' c₁ hheadA
    have halnum₁ : jsLetterOrDigit c₁ = true := by simpa using hq₁
    have hascii₁ : c₁.toNat < 128 :=
      hascii c₁ (hmemStrip c₁ (head?_mem _ c₁ hc₁))
    have hp₁ : (!collapseClass c₁) = true := by
      simp [ascii_alnum_not_collapse c₁ hascii₁ halnum₁]
    have hheadl : ((stripPunct l').filter fun c => !collapseClass c).head? =
        some c₁ := head?_filter _ _ c₁ hc₁ hp₁
    -- the last character of the stripped list is a letter/digit;
    -- work on the reverse, which is the second dropWhile's output
    obtain ⟨c₂, hc₂⟩ : ∃ c, ((l'.dropWhile fun c => !jsLetterOrDigit c).reverse.dropWhile
        fun c => !jsLetterOrDigit c).head? = some c := by
      cases hB : (l'.dropWhile fun c => !jsLetterOrDigit c).reverse.dropWhile
          fun c => !jsLetterOrDigit c with
      | nil =>
        exfalso
        apply hBrevne
        simp [stripPunct, hB]
      | cons x xs => exact ⟨x, rfl⟩
    have hq₂ : (!jsLetterOrDigit c₂) = false :=
      dropWhile_head_false _ _ c₂ hc₂
    have hmem₂ : c₂ ∈ stripPunct l' := by
      apply List.mem_reverse.mpr
      exact head?_mem _ c₂ hc₂
    have hascii₂ : c₂.toNat < 128 := hascii c₂ (hmemStrip c₂ hmem₂)
    have hp₂ : (!collapseClass c₂) = true := by
      have halnum₂ : jsLetterOrDigit c₂ = true := by simpa using hq₂
      simp [ascii_alnum_not_collapse c₂ hascii₂ halnum₂]
    have hrevfil : ((stripPunct l').filter fun c => !collapseClass c).reverse =
        ((l'.dropWhile fun c => !jsLetterOrDigit c).reverse.dropWhile
          fun c => !jsLetterOrDigit c).filter fun c => !collapseClass c := by
      rw [← List.filter_reverse]
      simp [stripPunct]
    have hheadlrev :
        ((stripPunct l').filter fun c => !collapseClass c).reverse.head? =
          some c₂ := by
      rw [hrevfil]
      exact head?_filter _ _ c₂ hc₂ hp₂
    -- dropWhile is the identity on the result and on its reverse
    have hdw1 : ((stripPunct l').filter fun c => !collapseClass c).dropWhile
        (fun c => !jsLetterOrDigit c) =
        ((stripPunct l').filter fun c => !collapseClass c) := by
      cases hL : (stripPunct l').filter fun c => !collapseClass c with
      | nil => rfl
      | cons x xs =>
        have hx : x = c₁ := by
          rw [hL] at hheadl
          simpa using hheadl
        rw [List.dropWhile_cons, if_neg]
        rw [hx]
        simp [hq₁]
    have hdw2 : (((stripPunct l').filter fun c => !collapseClass c).reverse).dropWhile
        (fun c => !jsLetterOrDigit c) =
        ((stripPunct l').filter fun c => !collapseClass c).reverse := by
      cases hL : ((stripPunct l').filter fun c => !collapseClass c).reverse with
      | nil => rfl
      | cons x xs =>
        have hx : x = c₂ := by
          rw [hL] at hheadlrev
          simpa using hheadlrev
        rw [List.dropWhile_cons, if_neg]
        rw [hx]
        simp [hq₂]
    have hstrip : stripPunct ((stripPunct l').filter fun c => !collapseClass c) =
        (stripPunct l').filter fun c => !collapseClass c := by
      rw [stripPunct, hdw1, hdw2, List.reverse_reverse]
    have hfil : ((stripPunct l').filter fun c => !collapseClass c).filter
        (fun c => !collapseClass c) =
        (stripPunct l').filter fun c => !collapseClass c := by
      rw [List.filter_eq_self]
      intro c hc
      exact (List.mem_filter.mp hc).2
    rw [normalizeWord, if_neg hl0, hmapA, hstrip, hfil]

/-- The word "a!é": Basic Latin letter, punctuation mark, then é (U+00E9),
a Unicode letter inside the accidental collapse range U+00B4–U+2013. -/
def exWordC10 : List Char := ['a', '!', Char.ofNat 0xE9]

/-- C10 failing input: `normalizeWord` maps "a!é" to "a!" (é is a letter,
so the edge strip keeps it, and then the collapse range deletes it,
exposing "!") and maps "a!" to "a" — a second application changes the
result, so the function is not idempotent. -/
theorem c10_normalizeWord_failing :
    normalizeWord (normalizeWord exWordC10) ≠ normalizeWord exWordC10 ∧
      normalizeWord exWordC10 = ['a', '!'] ∧
      normalizeWord (normalizeWord exWordC10) = ['a'] := by
  decide

/-- C10 on the intended character class: `normalizeWord` is idempotent on
Basic Latin strings, where the collapse class (there only U+0027 and
U+0060) contains no letter or digit. -/
theorem c10_normalizeWord_ascii_idem (w : List Char)
    (h : ∀ c ∈ w, c.toNat < 128) :
    normalizeWord (normalizeWord w) = normalizeWord w := by
  rcases eq_or_ne w [] with hw | hw
  · subst hw
    simp [normalizeWord]
  · have hw' : normalizeWord w =
        (stripPunct (w.map Char.toLower)).filter fun c => !collapseClass c := by
      rw [normalizeWord, if_neg hw]
    rw [hw']
    apply normalizeWord_second
    · intro c hc
      rcases List.mem_map.mp hc with ⟨c₀, hc₀, rfl⟩
      exact toLower_ascii c₀ (h c₀ hc₀)
    · intro c hc
      rcases List.mem_map.mp hc with ⟨c₀, _, rfl⟩
      exact toLower_idem c₀

/-- C10 witness: the idempotence theorem applied to the Basic Latin word
"don,t". -/
theorem c10_normalizeWord_ascii_idem_witness :
    normalizeWord (normalizeWord ['d', 'o', 'n', ',', 't']) =
      normalizeWord ['d', 'o', 'n', ',', 't'] :=
  c10_normalizeWord_ascii_idem ['d', 'o', 'n', ',', 't'] (by decide)

/-! ## Beam-search aligner (`aligner.js`)

The aligner state an operation touches is `tokens`, `pointer`,
`spokenBuffer` and `beam`; the configuration fields it reads are
`beamWidth`, `threshold`, `margin` and `windowSize`.  The source's `-1`
pointer sentinel (a document with no word token) makes the expansion loop
throw in JavaScript and is outside this embedding, so positions are
naturals. -/

/-- The closed filler set of `aligner.js`. -/
def FILLERS : List (List Char) :=
  [['u', 'h'], ['u', 'm'], ['e', 'r'], ['a', 'h'], ['e', 'h'],
   ['m', 'm'], ['h', 'm', 'm']]

/-- A reference token as read by the aligner and the app: `isWord`,
`norm`, the precomputed `phonetic` code pair, and the mutable `status`.
The source tokens also carry `id` and `text`, which no modelled operation
reads. -/
structure Token where
isWord : Bool
norm : List Char
phonetic : List Char × List Char
status : TokenStatus
deriving DecidableEq, Repr

/-- One step of an alignment path (the objects pushed onto `path`). -/
inductive AlignStep where
| stepMatch (textPos : ℕ) (spokenWord : List Char) (cost : ℚ)
| stepSub (textPos : ℕ) (spokenWord : List Char) (expected : List Char) (cost : ℚ)
| stepDel (textPos : ℕ) (expected : List Char) (cost : ℚ)
| stepIns (spokenWord : List Char) (cost : ℚ)
deriving DecidableEq, Repr

/-- `class AlignmentState`. -/
structure AlignState where
textPos : ℕ
spokenPos : ℕ
cost : ℚ
path : List AlignStep
deriving DecidableEq, Repr

/-- The aligner configuration fields read by the beam search. -/
structure AlignerConfig where
beamWidth : ℕ
threshold : ℚ
margin : ℚ
windowSize : ℕ
deriving Repr

/-- The `while (pos < this.tokens.length && count < this.windowSize)` loop
of `_getTextTokensInWindow`, over the remaining tokens. -/
def windowAux (windowSize : ℕ) : List Token → ℕ → ℕ → List (ℕ × Token)
| [], _, _ => []
| t :: rest, pos, count =>
  if count < windowSize then
    if t.isWord then (pos, t) :: windowAux windowSize rest (pos + 1) (count + 1)
    else windowAux windowSize rest (pos + 1) count
  else []

/-- `_getTextTokensInWindow(startPos)`: up to `windowSize` word tokens
(with their indices) from `startPos` onward. -/
def getTextTokensInWindow (tokens : List Token) (windowSize startPos : ℕ) :
    List (ℕ × Token) :=
  windowAux windowSize (tokens.drop startPos) startPos 0

/-- `_canMatch`: textual similarity meets the threshold. -/
def canMatch (cfg : AlignerConfig) (spokenWord : List Char)
    (textToken : Token) : Bool :=
  cfg.threshold ≤ similarity spokenWord textToken.norm

/-- `_generateTransitions(state, textPos, textToken, spokenWord)`: the
conditional match successor followed by the always-generated substitution,
deletion and insertion successors, in source order. -/
def generateTransitions (cfg : AlignerConfig) (state : AlignState)
    (textPos : ℕ) (textToken : Token) (spokenWord : List Char) :
    List AlignState :=
  let matchPart : List AlignState :=
    if canMatch cfg spokenWord textToken then
      let matchCost := 1 - similarity spokenWord textToken.norm
      [{ textPos := textPos + 1, spokenPos := state.spokenPos + 1,
         cost := state.cost + matchCost,
         path := state.path ++ [AlignStep.stepMatch textPos spokenWord matchCost] }]
    else []
  let subCost := 1 - similarity spokenWord textToken.norm
  let subState : AlignState :=
    { textPos := textPos + 1, spokenPos := state.spokenPos + 1,
      cost := state.cost + subCost,
      path := state.path ++
        [AlignStep.stepSub textPos spokenWord textToken.norm subCost] }
  let delState : AlignState :=
    { textPos := textPos + 1, spokenPos := state.spokenPos,
      cost := state.cost + 0.5,
      path := state.path ++ [AlignStep.stepDel textPos textToken.norm 0.5] }
  let insertCost : ℚ := if FILLERS.contains spokenWord then 0.1 else 0.3
  let insertState : AlignState :=
    { textPos := textPos, spokenPos := state.spokenPos + 1,
      cost := state.cost + insertCost,
      path := state.path ++ [AlignStep.stepIns spokenWord insertCost] }
  matchPart ++ [subState, delState, insertState]

/-- `_pruneBeam`: stable sort by ascending cost, keep the best
`beamWidth`. -/
def pruneBeam (beamWidth : ℕ) (states : List AlignState) : List AlignState :=
  (states.mergeSort fun a b => decide (a.cost ≤ b.cost)).take beamWidth

/-- `_expandBeam(spokenWord)`: all transitions of all beam states against
every candidate token in the window, pruned. -/
def expandBeam (cfg : AlignerConfig) (tokens : List Token)
    (beam : List AlignState) (spokenWord : List Char) : List AlignState :=
  pruneBeam cfg.beamWidth
    (beam.flatMap fun st =>
      (getTextTokensInWindow tokens cfg.windowSize st.textPos).flatMap
        fun pt => generateTransitions cfg st pt.1 pt.2 spokenWord)

/-- `_mark(idx, status, …)`: set the status of a word token, defensively a
no-op out of range or on a non-word token (the UI annotation side effects
are external). -/
def mark (tokens : List Token) (idx : ℕ) (status : TokenStatus) :
    List Token :=
  match tokens.get? idx with
  | some t =>
    if t.isWord then tokens.set idx { t with status := status } else tokens
  | none => tokens

/-- `_applyPath(path)`: mark matched tokens correct, substituted tokens
incorrect, deleted tokens skipped; insertions mark nothing. -/
def applyPath (tokens : List Token) (path : List AlignStep) : List Token :=
  path.foldl (fun toks step =>
    match step with
    | .stepMatch textPos _ _ => mark toks textPos TokenStatus.correct
    | .stepSub textPos _ _ _ => mark toks textPos TokenStatus.incorrect
    | .stepDel textPos _ _ => mark toks textPos TokenStatus.skipped
    | .stepIns _ _ => toks) tokens

/-- The mutable aligner state. -/
structure AlignerState where
tokens : List Token
pointer : ℕ
spokenBuffer : List (List Char)
beam : List AlignState
deriving Repr

/-- `_resetBeam()`: a single zero-cost hypothesis at the pointer. -/
def resetBeam (st : AlignerState) : AlignerState :=
  { st with beam := [{ textPos := st.pointer, spokenPos := 0, cost := 0,
                       path := [] }] }

/-- The `beam.reduce((best, current) => current.cost < best.cost ? current
: best)` fold of `_checkAdvancement`. -/
def reduceMinCost (s : AlignState) (rest : List AlignState) : AlignState :=
  rest.foldl (fun best cur => if cur.cost < best.cost then cur else best) s

/-- `_checkAdvancement()`: on a nonempty beam, find the best state and the
competitive states; commit (apply the best path, move the pointer, reset
the beam) when the best is alone competitive or clearly ahead.  The `≥
bestTextPos - 1` comparison is total in JavaScript (it holds vacuously
when `bestTextPos = 0`), matching truncated subtraction on `ℕ`. -/
def checkAdvancement (cfg : AlignerConfig) (st : AlignerState) :
    AlignerState :=
  match st.beam with
  | [] => st
  | b :: rest =>
    let bestState := reduceMinCost b rest
    let bestTextPos := bestState.textPos
    let bestCost := bestState.cost
    let competitiveStates := st.beam.filter fun s =>
      decide (bestTextPos - 1 ≤ s.textPos) &&
        decide (s.cost ≤ bestCost + cfg.margin)
    if competitiveStates.length = 1 ∨
        (st.pointer + 2 < bestTextPos ∧
          bestCost < (st.beam.length : ℚ) * 0.5) then
      resetBeam { st with tokens := applyPath st.tokens bestState.path,
                          pointer := bestTextPos }
    else st

/-- `_processBeamSearch()`: expand once per buffered word in arrival
order, check advancement, clear the buffer. -/
def processBeamSearch (cfg : AlignerConfig) (st : AlignerState) :
    AlignerState :=
  if st.spokenBuffer = [] then st
  else
    let expanded := st.spokenBuffer.foldl
      (fun beam w => expandBeam cfg st.tokens beam w) st.beam
    let st' := checkAdvancement cfg { st with beam := expanded }
    { st' with spokenBuffer := [] }

/-- Splitting at `/\s+/`: a maximal run of whitespace ends the current
piece and is swallowed whole (JavaScript yields an empty leading piece for
leading whitespace and an empty trailing piece for trailing whitespace).
`inWs` records whether the previous character belonged to the same
whitespace run. -/
def splitWsAux (inWs : Bool) (cur : List Char) : List Char → List (List Char)
| [] => [cur.reverse]
| c :: cs =>
  if c.isWhitespace then
    if inWs then splitWsAux true [] cs
    else cur.reverse :: splitWsAux true [] cs
  else splitWsAux false (c :: cur) cs

/-- `phrase.split(/\s+/)`. -/
def splitWs (l : List Char) : List (List Char) :=
  splitWsAux false [] l

/-- The word list built by `advanceWithPhrase`: split, normalize, drop
empties. -/
def normalizedWords (phrase : List Char) : List (List Char) :=
  ((splitWs phrase).map normalizeWord).filter fun w => w ≠ []

/-- `advanceWithPhrase(phrase)`: empty phrase is a no-op returning 0;
otherwise buffer the normalized words, run the beam search, and return the
number of words consumed. -/
def advanceWithPhrase (cfg : AlignerConfig) (st : AlignerState)
    (phrase : List Char) : AlignerState × ℕ :=
  if phrase = [] then (st, 0)
  else
    let words := normalizedWords phrase
    (processBeamSearch cfg
      { st with spokenBuffer := st.spokenBuffer ++ words }, words.length)

/-- The insertion successor is always the last generated transition: its
text position is the candidate's index, its spoken position advances by
one, and its cost adds 0.1 for fillers and 0.3 otherwise. -/
theorem generateTransitions_last (cfg : AlignerConfig) (st : AlignState)
    (textPos : ℕ) (textToken : Token) (spokenWord : List Char) :
    (generateTransitions cfg st textPos textToken spokenWord).getLast? =
      some { textPos := textPos, spokenPos := st.spokenPos + 1,
             cost := st.cost +
               (if FILLERS.contains spokenWord then 0.1 else 0.3),
             path := st.path ++ [AlignStep.stepIns spokenWord
               (if FILLERS.contains spokenWord then 0.1 else 0.3)] } := by
  simp only [generateTransitions]
  split <;> rfl

/-- C4 (amended): for every hypothesis expansion step, candidate token and
spoken word, the generated insertion successor (the last transition) adds
cost 0.1 when the spoken word is in the closed filler set and 0.3
otherwise, advances the spoken position by exactly one, and sets its text
position to the *candidate token's index* — which equals the hypothesis's
unchanged text position only when the candidate sits at that position. -/
theorem c4_insertion_amended (cfg : AlignerConfig) (st : AlignState)
    (textPos : ℕ) (textToken : Token) (spokenWord : List Char) :
    (generateTransitions cfg st textPos textToken spokenWord).getLast? =
      some { textPos := textPos, spokenPos := st.spokenPos + 1,
             cost := st.cost +
               (if FILLERS.contains spokenWord then 0.1 else 0.3),
             path := st.path ++ [AlignStep.stepIns spokenWord
               (if FILLERS.contains spokenWord then 0.1 else 0.3)] } :=
  generateTransitions_last cfg st textPos textToken spokenWord

/-- A default aligner configuration (the constructor values of
`aligner.js`). -/
def cfgC4 : AlignerConfig :=
  { beamWidth := 4, threshold := 0.8, margin := 0.1, windowSize := 10 }

/-- A hypothesis at text position 0. -/
def stC4 : AlignState :=
  { textPos := 0, spokenPos := 0, cost := 0, path := [] }

/-- A candidate word token. -/
def tokC4 : Token :=
  { isWord := true, norm := ['f', 'o', 'x'], phonetic := ([], []),
    status := TokenStatus.pending }

/-- C4 counterexample: with the hypothesis at text position 0 and the
candidate token at index 3 (window candidates may sit ahead of the
hypothesis), the generated insertion successor has text position 3 — the
candidate's index — not the hypothesis's unchanged position 0. -/
theorem c4_insertion_counterexample :
    ((generateTransitions cfgC4 stC4 3 tokC4 ['c', 'a', 't']).getLastD
        stC4).textPos = 3 ∧
      stC4.textPos = 0 := by
  constructor
  · rw [List.getLastD_eq_getLast?, generateTransitions_last]
    rfl
  · rfl

/-- Window candidates never sit before the window start. -/
theorem windowAux_start_le (w : ℕ) :
    ∀ (ts : List Token) (pos count : ℕ) (p : ℕ × Token),
      p ∈ windowAux w ts pos count → pos ≤ p.1 := by
  intro ts
  induction ts with
  | nil => intro pos count p hp; simp [windowAux] at hp
  | cons t rest ih =>
    intro pos count p hp
    rw [windowAux] at hp
    by_cases h1 : count < w
    · rw [if_pos h1] at hp
      by_cases h2 : t.isWord = true
      · rw [if_pos h2] at hp
        rcases List.mem_cons.mp hp with h | h
        · rw [h]
        · have := ih (pos + 1) (count + 1) p h
          omega
      · rw [if_neg h2] at hp
        have := ih (pos + 1) count p hp
        omega
    · rw [if_neg h1] at hp
      simp at hp

/-- `_getTextTokensInWindow` candidates lie at or after `startPos`. -/
theorem getTextTokensInWindow_start_le (tokens : List Token) (w start : ℕ)
    (p : ℕ × Token) (hp : p ∈ getTextTokensInWindow tokens w start) :
    start ≤ p.1 :=
  windowAux_start_le w (tokens.drop start) start 0 p hp

/-- Every transition's text position is at least the candidate's
position. -/
theorem generateTransitions_textPos_le (cfg : AlignerConfig)
    (st : AlignState) (textPos : ℕ) (tok : Token) (w : List Char)
    (s : AlignState) (hs : s ∈ generateTransitions cfg st textPos tok w) :
    textPos ≤ s.textPos := by
  simp only [generateTransitions] at hs
  rcases List.mem_append.mp hs with h | h
  · split at h
    · simp at h
      rw [h]
      show textPos ≤ textPos + 1
      omega
    · simp at h
  · simp only [List.mem_cons, List.mem_singleton] at h
    rcases h with h | h | h | h
    · rw [h]
      show textPos ≤ textPos + 1
      omega
    · rw [h]
      show textPos ≤ textPos + 1
      omega
    · rw [h]
    · simp at h

/-- Beam expansion preserves any lower bound on the text positions. -/
theorem expandBeam_lb (cfg : AlignerConfig) (tokens : List Token)
    (beam : List AlignState) (w : List Char) (p : ℕ)
    (h : ∀ s ∈ beam, p ≤ s.textPos) :
    ∀ s ∈ expandBeam cfg tokens beam w, p ≤ s.textPos := by
  intro s hs
  have hs0 : s ∈ (beam.flatMap fun st =>
      (getTextTokensInWindow tokens cfg.windowSize st.textPos).flatMap
        fun pt => generateTransitions cfg st pt.1 pt.2 w).mergeSort
        fun a b => decide (a.cost ≤ b.cost) :=
    List.take_subset cfg.beamWidth _ hs
  have hs1 := List.mem_mergeSort.mp hs0
  rcases List.mem_flatMap.mp hs1 with ⟨st, hst, hs2⟩
  rcases List.mem_flatMap.mp hs2 with ⟨pt, hpt, hs3⟩
  have h1 := h st hst
  have h2 := getTextTokensInWindow_start_le tokens cfg.windowSize st.textPos
    pt hpt
  have h3 := generateTransitions_textPos_le cfg st pt.1 pt.2 w s hs3
  omega

/-- The whole-round fold of expansions preserves the lower bound. -/
theorem foldl_expandBeam_lb (cfg : AlignerConfig) (tokens : List Token) :
    ∀ (words : List (List Char)) (beam : List AlignState) (p : ℕ),
      (∀ s ∈ beam, p ≤ s.textPos) →
      ∀ s ∈ words.foldl (fun bm w => expandBeam cfg tokens bm w) beam,
        p ≤ s.textPos := by
  intro words
  induction words with
  | nil => intro beam p h s hs; exact h s hs
  | cons w ws ih =>
    intro beam p h s hs
    exact ih (expandBeam cfg tokens beam w) p
      (expandBeam_lb cfg tokens beam w p h) s hs

/-- The `reduce` fold of `_checkAdvancement` returns a beam member. -/
theorem reduceMinCost_mem :
    ∀ (rest : List AlignState) (b : AlignState),
      reduceMinCost b rest ∈ b :: rest := by
  intro rest
  induction rest with
  | nil => intro b; simp [reduceMinCost]
  | cons x rest ih =>
    intro b
    have hfold : reduceMinCost b (x :: rest) =
        reduceMinCost (if x.cost < b.cost then x else b) rest := by
      simp [reduceMinCost]
    rw [hfold]
    rcases List.mem_cons.mp (ih (if x.cost < b.cost then x else b)) with h | h
    · rw [h]
      split
      · exact List.mem_cons_of_mem b (List.mem_cons_self x rest)
      · exact List.mem_cons_self b _
    · exact List.mem_cons_of_mem b (List.mem_cons_of_mem x h)

/-- `_checkAdvancement` never moves the pointer backwards when every beam
state sits at or after it. -/
theorem checkAdvancement_pointer_le (cfg : AlignerConfig)
    (st : AlignerState)
    (h : ∀ s ∈ st.beam, st.pointer ≤ s.textPos) :
    st.pointer ≤ (checkAdvancement cfg st).pointer := by
  cases hbeam : st.beam with
  | nil => simp [checkAdvancement, hbeam]
  | cons b rest =>
    simp only [checkAdvancement, hbeam]
    split
    · simp only [resetBeam]
      exact h (reduceMinCost b rest) (hbeam ▸ reduceMinCost_mem rest b)
    · exact le_refl st.pointer

/-- `_processBeamSearch` never moves the pointer backwards when every beam
state sits at or after it. -/
theorem processBeamSearch_pointer_le (cfg : AlignerConfig)
    (st : AlignerState)
    (h : ∀ s ∈ st.beam, st.pointer ≤ s.textPos) :
    st.pointer ≤ (processBeamSearch cfg st).pointer := by
  rw [processBeamSearch]
  split
  · exact le_refl st.pointer
  · exact checkAdvancement_pointer_le cfg
      ⟨st.tokens, st.pointer, st.spokenBuffer,
        st.spokenBuffer.foldl (fun bm w => expandBeam cfg st.tokens bm w)
          st.beam⟩
      (fun s hs => foldl_expandBeam_lb cfg st.tokens st.spokenBuffer st.beam
        st.pointer h s hs)

/-- C5: over one `advanceWithPhrase` round, the committed pointer never
regresses, given the beam invariant that every live hypothesis sits at or
after the committed pointer (which holds in every state the aligner itself
produces; only an external `setPointer` jump can break it, and the claim
excludes those). -/
theorem c5_commit_monotonic (cfg : AlignerConfig) (st : AlignerState)
    (phrase : List Char)
    (h : ∀ s ∈ st.beam, st.pointer ≤ s.textPos) :
    st.pointer ≤ (advanceWithPhrase cfg st phrase).1.pointer := by
  rw [advanceWithPhrase]
  split
  · exact le_refl st.pointer
  · exact processBeamSearch_pointer_le cfg
      { st with spokenBuffer := st.spokenBuffer ++ normalizedWords phrase } h

/-- C5 witness: the monotonicity theorem at a concrete one-hypothesis
state fed the phrase "hi". -/
theorem c5_commit_monotonic_witness :
    (⟨[], 0, [], [⟨0, 0, 0, []⟩]⟩ : AlignerState).pointer ≤
      (advanceWithPhrase ⟨4, 0.8, 0.1, 10⟩
        ⟨[], 0, [], [⟨0, 0, 0, []⟩]⟩ ['h', 'i']).1.pointer :=
  c5_commit_monotonic ⟨4, 0.8, 0.1, 10⟩ ⟨[], 0, [], [⟨0, 0, 0, []⟩]⟩
    ['h', 'i'] (by decide)

/-- Expanding an empty beam yields an empty beam. -/
theorem expandBeam_nil (cfg : AlignerConfig) (tokens : List Token)
    (w : List Char) : expandBeam cfg tokens [] w = [] := by
  simp [expandBeam, pruneBeam]

/-- A whole round of expansions of an empty beam yields an empty beam. -/
theorem foldl_expandBeam_nil (cfg : AlignerConfig) (tokens : List Token) :
    ∀ words : List (List Char),
      words.foldl (fun bm w => expandBeam cfg tokens bm w) [] = [] := by
  intro words
  induction words with
  | nil => rfl
  | cons w ws ih =>
    rw [List.foldl_cons, expandBeam_nil]
    exact ih

/-- C9: (i) when every hypothesis in the beam sits at or past the end of
the token sequence, expanding with any spoken word empties the beam;
(ii) once the beam is empty, `advanceWithPhrase` still returns the
normalized word count but leaves the tokens, the committed pointer and the
(empty) beam unchanged. -/
theorem c9_beam_exhaustion (cfg : AlignerConfig) (st : AlignerState)
    (w : List Char) (phrase : List Char) :
    ((∀ s ∈ st.beam, st.tokens.length ≤ s.textPos) →
      expandBeam cfg st.tokens st.beam w = []) ∧
    (st.beam = [] →
      (advanceWithPhrase cfg st phrase).1.tokens = st.tokens ∧
        (advanceWithPhrase cfg st phrase).1.pointer = st.pointer ∧
        (advanceWithPhrase cfg st phrase).1.beam = [] ∧
        (advanceWithPhrase cfg st phrase).2 =
          (normalizedWords phrase).length) := by
  constructor
  · intro h
    have hflat : (st.beam.flatMap fun s =>
        (getTextTokensInWindow st.tokens cfg.windowSize s.textPos).flatMap
          fun pt => generateTransitions cfg s pt.1 pt.2 w) = [] := by
      rw [List.eq_nil_iff_forall_not_mem]
      intro x hx
      rcases List.mem_flatMap.mp hx with ⟨s, hsb, hx2⟩
      rcases List.mem_flatMap.mp hx2 with ⟨pt, hpt, _⟩
      have hdrop : st.tokens.drop s.textPos = [] :=
        List.drop_eq_nil_of_le (h s hsb)
      rw [getTextTokensInWindow, hdrop] at hpt
      simp [windowAux] at hpt
    rw [expandBeam, hflat]
    simp [pruneBeam]
  · intro hb
    simp only [advanceWithPhrase]
    split
    · refine ⟨rfl, rfl, hb, ?_⟩
      rename_i hphrase
      rw [hphrase]
      rfl
    · simp only [processBeamSearch]
      split
      · refine ⟨rfl, rfl, hb, ?_⟩
        first
        | rfl
        | trivial
      · have hexp : (st.spokenBuffer ++ normalizedWords phrase).foldl
            (fun bm w => expandBeam cfg st.tokens bm w) st.beam = [] := by
          rw [hb]
          exact foldl_expandBeam_nil cfg st.tokens _
        have hchk : checkAdvancement cfg
            ⟨st.tokens, st.pointer, st.spokenBuffer ++ normalizedWords phrase,
              (st.spokenBuffer ++ normalizedWords phrase).foldl
                (fun bm w => expandBeam cfg st.tokens bm w) st.beam⟩ =
            ⟨st.tokens, st.pointer, st.spokenBuffer ++ normalizedWords phrase,
              []⟩ := by
          rw [hexp]
          rfl
        refine ⟨?_, ?_, ?_, ?_⟩
        · show (checkAdvancement cfg _).tokens = st.tokens
          rw [hchk]
        · show (checkAdvancement cfg _).pointer = st.pointer
          rw [hchk]
        · show (checkAdvancement cfg _).beam = []
          rw [hchk]
        · first
          | rfl
          | trivial

/-- C9 witness: part (i) at a beam whose single hypothesis sits past the
(empty) token list, and part (ii) at an empty-beam state with pointer 3
fed the phrase "hi". -/
theorem c9_beam_exhaustion_witness :
    expandBeam ⟨4, 0.8, 0.1, 10⟩
        (⟨[], 3, [], [⟨3, 0, 0, []⟩]⟩ : AlignerState).tokens
        (⟨[], 3, [], [⟨3, 0, 0, []⟩]⟩ : AlignerState).beam ['h', 'i'] = [] ∧
      (advanceWithPhrase ⟨4, 0.8, 0.1, 10⟩ ⟨[], 3, [], []⟩
          ['h', 'i']).1.pointer =
        (⟨[], 3, [], []⟩ : AlignerState).pointer :=
  ⟨(c9_beam_exhaustion ⟨4, 0.8, 0.1, 10⟩ ⟨[], 3, [], [⟨3, 0, 0, []⟩]⟩
      ['h', 'i'] ['h', 'i']).1 (by decide),
    ((c9_beam_exhaustion ⟨4, 0.8, 0.1, 10⟩ (⟨[], 3, [], []⟩ : AlignerState)
      ['h', 'i'] ['h', 'i']).2 rfl).2.1⟩

/-! ## Phonetic similarity blending (`src/unnamed/part_000`,
`_combinedSimilarity`)

This aligner variant computes its textual similarity with the
fastest-levenshtein library's `distance`; that library computes the
classic Levenshtein edit distance, modelled here by the `levenshtein`
function proved equal to the textbook table above.  The per-pair score in
the fallback loop inlines exactly the body of `similarity`
(`1 - distance / (max length || 1)`), so it is written with `similarity`
here. -/

/-- The two configuration fields `_combinedSimilarity` reads. -/
structure PhConfig where
phoneticEnabled : Bool
phoneticWeight : ℚ
deriving Repr

/-- `_combinedSimilarity(spokenWord, spokenPhonetic, textToken)`: textual
similarity alone when phonetics are disabled; otherwise a phonetic score
(1 on any exact code overlap, else the best pairwise normalized edit
distance between nonempty codes, else 0 when no codes exist), blended by
`phoneticWeight`, and finally the maximum of the blend and the raw textual
similarity. -/
def combinedSimilarity (cfg : PhConfig) (spokenWord : List Char)
    (spokenPhonetic : List Char × List Char) (textToken : Token) : ℚ :=
  let textSim := similarity spokenWord textToken.norm
  if !cfg.phoneticEnabled then textSim
  else
    let tPhon := textToken.phonetic
    let phonSim : ℚ :=
      if tPhon.1 ≠ [] ∨ tPhon.2 ≠ [] ∨ spokenPhonetic.1 ≠ [] ∨
          spokenPhonetic.2 ≠ [] then
        if (spokenPhonetic.1 ≠ [] ∧ (spokenPhonetic.1 = tPhon.1 ∨
              spokenPhonetic.1 = tPhon.2)) ∨
            (spokenPhonetic.2 ≠ [] ∧ (spokenPhonetic.2 = tPhon.1 ∨
              spokenPhonetic.2 = tPhon.2)) then 1
        else
          let pairs := ([spokenPhonetic.1, spokenPhonetic.2].filter
              fun s => s ≠ []).flatMap fun a =>
            ([tPhon.1, tPhon.2].filter fun s => s ≠ []).map fun b => (a, b)
          pairs.foldl (fun best ab =>
            let sim := similarity ab.1 ab.2
            if best < sim then sim else best) 0
      else 0
    let blended := cfg.phoneticWeight * phonSim +
      (1 - cfg.phoneticWeight) * textSim
    max textSim blended

/-- C8: the combined similarity never falls below the raw textual
similarity of the same pair — it is either the raw similarity itself
(phonetics disabled) or the maximum of the raw similarity and the blend,
so enabling phonetic matching can only raise the score. -/
theorem c8_phonetic_sim_ge (cfg : PhConfig) (spokenWord : List Char)
    (spokenPhonetic : List Char × List Char) (textToken : Token) :
    similarity spokenWord textToken.norm ≤
      combinedSimilarity cfg spokenWord spokenPhonetic textToken := by
  unfold combinedSimilarity
  split
  · exact le_refl _
  · exact le_max_left _ _

/-! ## Auto-backtrack rollback (`app.js`, `performAutoBacktrack`) -/

/-- `find?` returns the head of the filtered list. -/
theorem find?_eq_head?_filter (p : DecisionRecord → Bool) :
    ∀ l : List DecisionRecord, l.find? p = (l.filter p).head? := by
  intro l
  induction l with
  | nil => rfl
  | cons x xs ih =>
    by_cases hx : p x = true
    · rw [List.find?_cons_of_pos _ hx, List.filter_cons_of_pos hx]
      rfl
    · rw [List.find?_cons_of_neg _ hx, List.filter_cons_of_neg hx]
      exact ih

/-- The rollback-target scan of `performAutoBacktrack`: the token index of
the most recent `correct` record; when none exists, `decisions[0].index`.
JavaScript throws on an empty window (`decisions[0]` is undefined), so the
`headD` default is never reached under the nonemptiness hypothesis of the
theorems below. -/
def rollbackTarget (decisions : List DecisionRecord) : ℕ :=
  match decisions.reverse.find? fun d => d.status == TokenStatus.correct with
  | some d => d.index
  | none => (decisions.headD ⟨0, TokenStatus.pending⟩).index

/-- `performAutoBacktrack(decisions)` from `app.js`, acting on the session
state it touches: compute the rollback target, reset the word tokens of
`[max(0, target − 2), min(length − 1, pointer)]` to pending, move the
pointer to the target, and clear the decision buffer.  The pointer is an
integer because the session pointer can legitimately be `-1` (end of
text). -/
def performAutoBacktrack (tokens : List Token) (pointer : ℤ)
    (buf : DecisionBuffer DecisionRecord)
    (decisions : List DecisionRecord) :
    List Token × ℤ × DecisionBuffer DecisionRecord :=
  let rollbackIndex := rollbackTarget decisions
  let startIdx : ℤ := max 0 ((rollbackIndex : ℤ) - 2)
  let endIdx : ℤ := min ((tokens.length : ℤ) - 1) pointer
  let newTokens := tokens.mapIdx fun i t =>
    if startIdx ≤ (i : ℤ) ∧ (i : ℤ) ≤ endIdx ∧ t.isWord = true then
      { t with status := TokenStatus.pending }
    else t
  (newTokens, (rollbackIndex : ℤ), buf.clear)

/-- `mapIdx` only looks at in-range indices. -/
theorem mapIdx_congr_lt :
    ∀ (l : List Token) (f g : ℕ → Token → Token),
      (∀ i a, i < l.length → f i a = g i a) → l.mapIdx f = l.mapIdx g := by
  intro l
  induction l with
  | nil => intro f g hfg; rfl
  | cons x xs ih =>
    intro f g hfg
    rw [List.mapIdx_cons, List.mapIdx_cons, hfg 0 x (by simp)]
    rw [ih (fun i => f (i + 1)) (fun i => g (i + 1))
      (fun i a hi => hfg (i + 1) a (by simp only [List.length_cons]; omega))]

/-- C6: on a nonempty inspected window, the rollback resets exactly the
word tokens from `max(0, target − 2)` through the committed pointer to
pending, moves the pointer to the target, and empties the buffer; and the
target is the most recent correct record's token index (the last element
of the correct-filtered window), or the oldest record's token index when
no correct record exists. -/
theorem c6_backtrack (tokens : List Token) (pointer : ℤ)
    (buf : DecisionBuffer DecisionRecord)
    (decisions : List DecisionRecord) (h : decisions ≠ []) :
    performAutoBacktrack tokens pointer buf decisions =
      (tokens.mapIdx fun i t =>
        if max 0 ((rollbackTarget decisions : ℤ) - 2) ≤ (i : ℤ) ∧
            (i : ℤ) ≤ pointer ∧ t.isWord = true
        then { t with status := TokenStatus.pending } else t,
       (rollbackTarget decisions : ℤ),
       ⟨buf.size, [], 0, 0⟩) ∧
    rollbackTarget decisions =
      (match (decisions.filter fun d =>
          d.status == TokenStatus.correct).getLast? with
       | some d => d.index
       | none => (decisions.head h).index) := by
  constructor
  · simp only [performAutoBacktrack]
    have hmap : (tokens.mapIdx fun i t =>
        if max 0 ((rollbackTarget decisions : ℤ) - 2) ≤ (i : ℤ) ∧
            (i : ℤ) ≤ min ((tokens.length : ℤ) - 1) pointer ∧
            t.isWord = true
        then { t with status := TokenStatus.pending } else t) =
        (tokens.mapIdx fun i t =>
          if max 0 ((rollbackTarget decisions : ℤ) - 2) ≤ (i : ℤ) ∧
              (i : ℤ) ≤ pointer ∧ t.isWord = true
          then { t with status := TokenStatus.pending } else t) := by
      apply mapIdx_congr_lt
      intro i a hi
      apply if_congr _ rfl rfl
      constructor
      · rintro ⟨h1, h2, h3⟩
        exact ⟨h1, by omega, h3⟩
      · rintro ⟨h1, h2, h3⟩
        exact ⟨h1, by omega, h3⟩
    rw [hmap]
    rfl
  · rw [rollbackTarget]
    rw [find?_eq_head?_filter, List.filter_reverse, List.head?_reverse]
    cases hopt : (decisions.filter fun d =>
        d.status == TokenStatus.correct).getLast? with
    | some d => rfl
    | none =>
      cases decisions with
      | nil => exact absurd rfl h
      | cons x xs => rfl

/-- C6 witness: the rollback theorem at a one-token document with pointer
0 and a single correct decision record. -/
theorem c6_backtrack_witness :
    performAutoBacktrack [⟨true, ['a'], ([], []), TokenStatus.correct⟩] 0
        (DecisionBuffer.mk0 DecisionRecord 20)
        [⟨0, TokenStatus.correct⟩] =
      ([⟨true, ['a'], ([], []), TokenStatus.correct⟩].mapIdx fun i t =>
        if max 0 ((rollbackTarget [⟨0, TokenStatus.correct⟩] : ℤ) - 2) ≤
            (i : ℤ) ∧ (i : ℤ) ≤ 0 ∧ t.isWord = true
        then { t with status := TokenStatus.pending } else t,
       (rollbackTarget [⟨0, TokenStatus.correct⟩] : ℤ),
       ⟨(DecisionBuffer.mk0 DecisionRecord 20).size, [], 0, 0⟩) ∧
    rollbackTarget [⟨0, TokenStatus.correct⟩] =
      (match (([⟨0, TokenStatus.correct⟩] : List DecisionRecord).filter
          fun d => d.status == TokenStatus.correct).getLast? with
       | some d => d.index
       | none =>
         (([⟨0, TokenStatus.correct⟩] : List DecisionRecord).head
           (by decide)).index) :=
  c6_backtrack [⟨true, ['a'], ([], []), TokenStatus.correct⟩] 0
    (DecisionBuffer.mk0 DecisionRecord 20) [⟨0, TokenStatus.correct⟩]
    (by decide)

end ReadingPractice
